import Mathlib

/-!
Verification of `cleanlab/token_classification/rank.py`.

This file gives a shallow embedding of the module's functions and proves
properties about them:

* `nested_list` / `takeN` embed the inner helper `nested_list` of
  `get_label_quality_scores` (which consumes elements of a flat sequence
  through an iterator, so that running out of elements raises
  `StopIteration`, embedded as `none`, while leftover elements are
  silently ignored).
* `argsort`, `cutoffLoop`, `sentenceIssues`, `collectRow`, `collectIssues`,
  `tokenIssues` and `issues_from_scores` embed `issues_from_scores`.
* `listMin`, `listMean`, `softmax_t`, `softminFun` and
  `_softmin_sentence_score` embed `_softmin_sentence_score`.
* `main_get_label_quality_scores` models the external token scorer
  (imported from `cleanlab.rank`, not part of this module) and
  `get_label_quality_scores` embeds the function of the same name.

Scores are embedded as rational numbers where only ordering and exact
arithmetic matter, and as real numbers where the exponential function is
involved.  A Python exception is embedded as `none` / `Except.error`.
-/

namespace CleanlabRank

/-! ### The `nested_list` helper (flatten/nest adapter) -/

/-- Take `n` elements from the front of a list, returning the taken prefix
and the remaining suffix; `none` when the list has fewer than `n` elements
(the iterator raises `StopIteration`). -/
def takeN {α : Type*} : List α → Nat → Option (List α × List α)
  | rest, 0 => some ([], rest)
  | [], _ + 1 => none
  | a :: rest, n + 1 =>
    match takeN rest n with
    | none => none
    | some (t, r) => some (a :: t, r)

/-- Embedding of the inner helper `nested_list` of `get_label_quality_scores`:
`nested_list(x, sentence_length)` builds one sublist per entry of
`sentence_length`, consuming that many elements from the front of `x`
through a single iterator.  Running out of elements is an exception
(`none`); elements of `x` left over after the last sentence are silently
ignored, exactly as the Python iterator is simply dropped. -/
def nested_list {α : Type*} : List α → List Nat → Option (List (List α))
  | _, [] => some []
  | flat, len :: lens =>
    match takeN flat len with
    | none => none
    | some (t, rest) =>
      match nested_list rest lens with
      | none => none
      | some r => some (t :: r)

/-! ### The issue ranker (`issues_from_scores`) -/

/-- Embedding of `np.argsort(sentence_scores)`: the list of all indices of
`scores`, ordered so that the corresponding scores are ascending.  (NumPy's
default sort is not stable; this model uses a deterministic insertion sort,
which only matters for the order of tied scores, irrelevant to the claims
settled here.) -/
def argsort (scores : List ℚ) : List Nat :=
  List.insertionSort (fun i j => scores.getD i 0 ≤ scores.getD j 0)
    (List.range scores.length)

/-- Embedding of the sentence-mode `while` loop

`while sentence_scores[ranking[cutoff]] < threshold and cutoff < len(ranking): cutoff += 1`

of `issues_from_scores`.  The loop indexes `ranking[cutoff]` *before*
checking `cutoff < len(ranking)`; an out-of-range index is an `IndexError`,
embedded as `none`.  The `fuel` argument only makes the recursion
structural; every call from `sentenceIssues` supplies more fuel than the
loop can consume, so fuel exhaustion (also `none`) is unreachable. -/
def cutoffLoop (scores : List ℚ) (ranking : List Nat) (threshold : ℚ) :
    Nat → Nat → Option Nat
  | 0, _ => none
  | fuel + 1, cutoff =>
    match ranking.get? cutoff with
    | none => none
    | some idx =>
      match scores.get? idx with
      | none => none
      | some s =>
        if s < threshold ∧ cutoff < ranking.length then
          cutoffLoop scores ranking threshold fuel (cutoff + 1)
        else some cutoff

/-- Sentence mode of `issues_from_scores`: argsort the sentence scores, walk
the ranking accumulating while below threshold, return the prefix.  `none`
embeds an uncaught `IndexError`. -/
def sentenceIssues (scores : List ℚ) (threshold : ℚ) : Option (List Nat) :=
  let ranking := argsort scores
  (cutoffLoop scores ranking threshold (ranking.length + 1) 0).map
    fun cutoff => ranking.take cutoff

/-- Inner loop of token mode: scan one sentence's token scores (with
sentence index `i`, starting at token index `j`), keeping the triples
`(i, j, score)` with `score < threshold`. -/
def collectRow (threshold : ℚ) (i : Nat) : Nat → List ℚ → List (Nat × Nat × ℚ)
  | _, [] => []
  | j, s :: rest =>
    (if s < threshold then [(i, j, s)] else []) ++ collectRow threshold i (j + 1) rest

/-- Outer loop of token mode: scan all sentences starting at sentence
index `i`, collecting the below-threshold triples in scan order. -/
def collectIssues (threshold : ℚ) : Nat → List (List ℚ) → List (Nat × Nat × ℚ)
  | _, [] => []
  | i, row :: rest => collectRow threshold i 0 row ++ collectIssues threshold (i + 1) rest

/-- The sort key of `sorted(issues_with_scores, key=lambda x: x[2])`:
compare triples by their score component.  Python's `sorted` is stable;
`List.insertionSort` with this reflexive-total relation is stable in the
same sense. -/
def scoreLe (a b : Nat × Nat × ℚ) : Prop := a.2.2 ≤ b.2.2

instance : DecidableRel scoreLe := fun a b =>
  inferInstanceAs (Decidable (a.2.2 ≤ b.2.2))

instance : IsTotal (Nat × Nat × ℚ) scoreLe := ⟨fun a b => le_total a.2.2 b.2.2⟩

instance : IsTrans (Nat × Nat × ℚ) scoreLe := ⟨fun _ _ _ h1 h2 => le_trans h1 h2⟩

/-- Token mode of `issues_from_scores`: collect the below-threshold
triples in scan order, sort them ascending by score (stable), and drop the
scores. -/
def tokenIssues (token_scores : List (List ℚ)) (threshold : ℚ) : List (Nat × Nat) :=
  (List.insertionSort scoreLe (collectIssues threshold 0 token_scores)).map
    fun x => (x.1, x.2.1)

/-- Embedding of `issues_from_scores(sentence_scores, token_scores, threshold)`.
`token_scores = None` (or an empty list: Python truthiness) selects
sentence mode.  The result is `Sum.inl` of (sentence, token) pairs in token
mode, `Sum.inr` of sentence indices in sentence mode; `none` embeds an
uncaught exception. -/
def issues_from_scores (sentence_scores : List ℚ)
    (token_scores : Option (List (List ℚ))) (threshold : ℚ) :
    Option (List (Nat × Nat) ⊕ List Nat) :=
  if token_scores.getD [] ≠ [] then
    some (Sum.inl (tokenIssues (token_scores.getD []) threshold))
  else
    (sentenceIssues sentence_scores threshold).map Sum.inr

/-- The score the token-mode scan reads for position `(i, j)`:
`token_scores[i][j]`. -/
def tokenScoreAt (token_scores : List (List ℚ)) (p : Nat × Nat) : ℚ :=
  (token_scores.getD p.1 []).getD p.2 0

/-- Scan order on positions: sentence index first, then token index. -/
def posLt (p q : Nat × Nat) : Prop :=
  p.1 < q.1 ∨ (p.1 = q.1 ∧ p.2 < q.2)

/-- Scan order on collected triples: compare their positions. -/
def scanRel (a b : Nat × Nat × ℚ) : Prop := posLt (a.1, a.2.1) (b.1, b.2.1)

/-- The order a stable sort by score produces on triples collected in scan
order: strictly smaller score, or equal scores and earlier scan position. -/
def stableRel (a b : Nat × Nat × ℚ) : Prop :=
  a.2.2 < b.2.2 ∨ (a.2.2 = b.2.2 ∧ posLt (a.1, a.2.1) (b.1, b.2.1))

/-! ### The sentence aggregator (`_softmin_sentence_score`) -/

/-- Embedding of `np.min` on a non-empty array (the empty case never occurs
under the module's contracts; the junk value `0` stands in for it). -/
noncomputable def listMin : List ℝ → ℝ
  | [] => 0
  | x :: xs => xs.foldl min x

/-- Counterpart of `listMin` for `np.max` (used only to state bounds). -/
noncomputable def listMax : List ℝ → ℝ
  | [] => 0
  | x :: xs => xs.foldl max x

/-- Embedding of `np.mean`: arithmetic mean. -/
noncomputable def listMean (l : List ℝ) : ℝ := l.sum / l.length

/-- Embedding of `np.dot` on equal-length vectors. -/
noncomputable def dotList (a b : List ℝ) : ℝ := ((a.zip b).map fun p => p.1 * p.2).sum

/-- Embedding of the inner `softmax` of `_softmin_sentence_score`:
`exp(scores / temperature) / sum(exp(scores / temperature))` (no
max-shifting, exactly as in the source). -/
noncomputable def softmax_t (temperature : ℝ) (scores : List ℝ) : List ℝ :=
  let exp_scores := scores.map fun x => Real.exp (x / temperature)
  exp_scores.map fun e => e / exp_scores.sum

/-- Embedding of the inner `fun` of `_softmin_sentence_score`:
`np.dot(scores, softmax(1 - np.array(scores)))`. -/
noncomputable def softminFun (temperature : ℝ) (scores : List ℝ) : ℝ :=
  dotList scores (softmax_t temperature (scores.map fun s => 1 - s))

open Classical in
/-- Embedding of `_softmin_sentence_score(token_scores, temperature)`.
The temperature lives in `EReal` so that the source's special cases
`temperature == 0` and `temperature == np.inf` are representable; a finite
temperature is an ordinary real coerced into `EReal`. -/
noncomputable def _softmin_sentence_score (token_scores : List (List ℝ))
    (temperature : EReal) : List ℝ :=
  if temperature = 0 then token_scores.map listMin
  else if temperature = ⊤ then token_scores.map listMean
  else token_scores.map (softminFun temperature.toReal)

/-- Plain softmax as written in the specification (`w = softmax((1-s)/t)`),
for comparison with the source's `softmax`, which divides by the
temperature internally. -/
noncomputable def softmaxSpec (y : List ℝ) : List ℝ :=
  y.map fun v => Real.exp v / (y.map Real.exp).sum

/-! ### `get_label_quality_scores` -/

/-- Modelled from the spec: the external Token Quality Scorer
(`cleanlab.rank.get_label_quality_scores`, imported by the module but not
part of it).  Per spec section 4.2 it is "given a flat sequence of noisy
labels and a flat sequence of probability rows of equal length" and
"returns one scalar in [0,1] per input element, in the same order"; a
length mismatch violates its contract and raises.  The scalar returned for
self-confidence scoring is the predicted probability of the given label,
`pred_probs[i][labels[i]]` (out-of-range labels are out of contract; the
junk value `0` stands in for them). -/
noncomputable def main_get_label_quality_scores (labels : List Nat)
    (pred_probs : List (List ℝ)) : Except String (List ℝ) :=
  if labels.length = pred_probs.length then
    Except.ok (List.zipWith (fun l p => p.getD l 0) labels pred_probs)
  else
    Except.error "labels and pred_probs must have equal length"

/-- The message of the `assert sentence_score_method in methods` failure:
`"Select from the following methods:\n%s" % "\n".join(methods)`. -/
def methodsMsg : String := "Select from the following methods:\nmin\nsoftmin"

/-- Embedding of `get_label_quality_scores(labels, pred_probs, ...)`:
assert the sentence scoring method is recognized, flatten labels and
probability rows, score the flat stream with the external scorer, re-nest
by the per-sentence lengths of `labels`, and aggregate per sentence with
`min` or `softmin`.  Returns the sentence scores and the nested token
scores (`token_info` carries exactly the nested scores; the optional
`tokens` argument only relabels the returned series and is omitted).
Exceptions are embedded as `Except.error` with the assertion's message. -/
noncomputable def get_label_quality_scores (labels : List (List Nat))
    (pred_probs : List (List (List ℝ))) (sentence_score_method : String)
    (temperature : EReal) : Except String (List ℝ × List (List ℝ)) :=
  if sentence_score_method ∈ ["min", "softmin"] then
    let labels_flatten := labels.flatten
    let pred_probs_flatten := pred_probs.flatten
    let sentence_length := labels.map List.length
    match main_get_label_quality_scores labels_flatten pred_probs_flatten with
    | Except.error e => Except.error e
    | Except.ok token_scores =>
      match nested_list token_scores sentence_length with
      | none => Except.error "StopIteration"
      | some scores_nl =>
        if sentence_score_method = "min" then
          Except.ok (scores_nl.map listMin, scores_nl)
        else
          Except.ok (_softmin_sentence_score scores_nl temperature, scores_nl)
  else
    Except.error methodsMsg

theorem takeN_none_iff {α : Type*} :
    ∀ (flat : List α) (n : Nat), takeN flat n = none ↔ flat.length < n
  | _, 0 => by simp [takeN]
  | [], n + 1 => by simp [takeN]
  | a :: rest, n + 1 => by
    have hrec := takeN_none_iff rest n
    simp only [takeN, List.length_cons]
    rcases h : takeN rest n with _ | ⟨t, r⟩
    · rw [h] at hrec
      simp only [true_iff] at hrec
      simp only [h]
      exact iff_of_true trivial (by omega)
    · rw [h] at hrec
      simp only [reduceCtorEq, false_iff, not_lt] at hrec
      simp only [h]
      exact iff_of_false (by simp) (by omega)

theorem takeN_of_le {α : Type*} :
    ∀ (flat : List α) (n : Nat), n ≤ flat.length →
      takeN flat n = some (flat.take n, flat.drop n)
  | _, 0, _ => by simp [takeN]
  | [], n + 1, h => by simp at h
  | a :: rest, n + 1, h => by
    have hn : n ≤ rest.length := by simpa using Nat.le_of_succ_le_succ h
    simp [takeN, takeN_of_le rest n hn]

theorem takeN_append {α : Type*} (s r : List α) :
    takeN (s ++ r) s.length = some (s, r) := by
  rw [takeN_of_le (s ++ r) s.length (by simp)]
  simp

theorem nested_list_none_iff {α : Type*} :
    ∀ (flat : List α) (lens : List Nat),
      nested_list flat lens = none ↔ flat.length < lens.sum
  | flat, [] => by simp [nested_list]
  | flat, len :: lens => by
    rcases Nat.lt_or_ge flat.length len with hlt | hle
    · have ht : takeN flat len = none := (takeN_none_iff flat len).mpr hlt
      simp only [nested_list, ht, List.sum_cons]
      exact iff_of_true trivial (by omega)
    · have ht : takeN flat len = some (flat.take len, flat.drop len) :=
        takeN_of_le flat len hle
      have hrec := nested_list_none_iff (flat.drop len) lens
      simp only [nested_list, ht, List.sum_cons]
      rcases h : nested_list (flat.drop len) lens with _ | r
      · rw [h] at hrec
        simp only [true_iff, List.length_drop] at hrec
        simp only [h]
        exact iff_of_true trivial (by omega)
      · rw [h] at hrec
        simp only [reduceCtorEq, false_iff, not_lt, List.length_drop] at hrec
        simp only [h]
        exact iff_of_false (by simp) (by omega)

theorem nested_list_of_le {α : Type*} :
    ∀ (flat : List α) (lens : List Nat), lens.sum ≤ flat.length →
      ∃ r, nested_list flat lens = some r ∧ r.map List.length = lens ∧
        r.flatten = flat.take lens.sum
  | flat, [], _ => ⟨[], by simp [nested_list]⟩
  | flat, len :: lens, h => by
    have hlen : len ≤ flat.length := by
      simp only [List.sum_cons] at h
      omega
    have hrest : lens.sum ≤ (flat.drop len).length := by
      simp only [List.length_drop, List.sum_cons] at h ⊢
      omega
    obtain ⟨r, hr, hshape, hflat⟩ := nested_list_of_le (flat.drop len) lens hrest
    refine ⟨flat.take len :: r, ?_, ?_, ?_⟩
    · simp [nested_list, takeN_of_le flat len hlen, hr]
    · simp [hshape, List.length_take, Nat.min_eq_left hlen]
    · simp only [List.flatten_cons, hflat, List.sum_cons]
      rw [List.take_add]

theorem nest_flatten_round_trip_aux {α : Type*} :
    ∀ (x : List (List α)),
      nested_list x.flatten (x.map List.length) = some x
  | [] => by simp [nested_list]
  | s :: rest => by
    simp only [List.flatten_cons, List.map_cons, nested_list, takeN_append,
      nest_flatten_round_trip_aux rest]

/-- Claim C8: re-nesting the flattened sequence by the original per-sentence
lengths reproduces the nested sequence exactly, preserving sentence order
and token order. -/
theorem nest_flatten_round_trip {α : Type*} (x : List (List α))
    (_hne : ∀ s ∈ x, s ≠ []) :
    nested_list x.flatten (x.map List.length) = some x :=
  nest_flatten_round_trip_aux x

/-- Witness for C8 at `x = [[1], [2, 3]]`. -/
theorem nest_flatten_round_trip_witness :
    (∀ s ∈ [[(1 : ℚ)], [2, 3]], s ≠ []) ∧
      nested_list (List.flatten [[(1 : ℚ)], [2, 3]])
        (List.map List.length [[(1 : ℚ)], [2, 3]]) = some [[(1 : ℚ)], [2, 3]] :=
  ⟨by decide, nest_flatten_round_trip [[(1 : ℚ)], [2, 3]] (by decide)⟩

/-- Counterexample to claim C2 as stated: with `flat = [1, 2, 3]` and
`sentence_lengths = [1, 1]` we have `sum(sentence_lengths) = 2 ≠ 3 =
len(flat)`, yet `nested_list` does not fail: it silently truncates,
returning `[[1], [2]]` and dropping the trailing element `3`. -/
theorem nested_list_silent_truncation :
    List.sum [1, 1] ≠ List.length [(1 : ℚ), 2, 3] ∧
      nested_list [(1 : ℚ), 2, 3] [1, 1] = some [[1], [2]] := by
  constructor
  · decide
  · rfl

/-- Claim C2 (amended): re-nesting fails (`StopIteration`) exactly when
`sum(sentence_lengths) > len(flat)`; when `sum(sentence_lengths) ≤
len(flat)` it succeeds with a result shaped by `sentence_lengths` that
consumes only the first `sum(sentence_lengths)` elements of `flat` — in
particular, when `sum(sentence_lengths) < len(flat)` the trailing elements
are silently dropped rather than reported as a length mismatch. -/
theorem nested_list_error_characterization (flat : List ℚ) (lens : List Nat) :
    (nested_list flat lens = none ↔ flat.length < lens.sum) ∧
      (lens.sum ≤ flat.length →
        ∃ r, nested_list flat lens = some r ∧ r.map List.length = lens ∧
          r.flatten = flat.take lens.sum) :=
  ⟨nested_list_none_iff flat lens, nested_list_of_le flat lens⟩

/-- Witness for C2 (amended) at `flat = [1, 2, 3]`, `lens = [1, 1]`. -/
theorem nested_list_error_characterization_witness :
    List.sum [1, 1] ≤ List.length [(1 : ℚ), 2, 3] ∧
      ∃ r, nested_list [(1 : ℚ), 2, 3] [1, 1] = some r ∧
        r.map List.length = [1, 1] ∧
        r.flatten = List.take (List.sum [1, 1]) [(1 : ℚ), 2, 3] :=
  ⟨by decide, (nested_list_error_characterization [(1 : ℚ), 2, 3] [1, 1]).2 (by decide)⟩

/-- Sanity check of the sentence-mode embedding against the docstring
example of `issues_from_scores` (not a claim): the docstring's ten sentence
scores and default threshold `0.1`, all scaled by `10^4` (which preserves
every comparison), give the docstring's result `[7, 4]`. -/
theorem sentence_mode_docstring_example :
    issues_from_scores
      [1000, 3000, 6000, 2000, 500, 9000, 8000, 125, 5000, 6000] none 1000
      = some (Sum.inr [7, 4]) := by
  decide

/-- Claim C1 (code bug): in sentence mode, on an input where *every*
sentence scores below the threshold, the ranking walk indexes
`ranking[cutoff]` with `cutoff = len(ranking)` — the bounds check sits
after the indexing in the loop condition — so the call raises `IndexError`
(evaluates to `none`) instead of returning all indices. -/
theorem sentence_mode_index_error_when_all_below :
    issues_from_scores [(5 : ℚ)] none 10 = none := by
  decide

theorem collectRow_mem (θ : ℚ) (i : Nat) :
    ∀ (row : List ℚ) (j0 : Nat) (t : Nat × Nat × ℚ),
      t ∈ collectRow θ i j0 row ↔
        ∃ j s, row.get? j = some s ∧ s < θ ∧ t = (i, j0 + j, s)
  | [], j0, t => by simp [collectRow]
  | s :: rest, j0, t => by
    simp only [collectRow, List.mem_append]
    rw [collectRow_mem θ i rest (j0 + 1) t]
    constructor
    · rintro (h | ⟨j, s', hg, hlt, rfl⟩)
      · by_cases hs : s < θ
        · simp only [if_pos hs, List.mem_singleton] at h
          exact ⟨0, s, by simp, hs, by simpa using h⟩
        · simp [if_neg hs] at h
      · exact ⟨j + 1, s', by simpa using hg, hlt, by
          simp [Nat.add_assoc, Nat.add_comm 1 j]⟩
    · rintro ⟨j, s', hg, hlt, rfl⟩
      cases j with
      | zero =>
        simp only [List.get?_cons_zero, Option.some.injEq] at hg
        subst hg
        exact Or.inl (by simp [if_pos hlt])
      | succ j =>
        refine Or.inr ⟨j, s', by simpa using hg, hlt, ?_⟩
        simp [Nat.add_assoc, Nat.add_comm 1 j]

theorem collectIssues_mem (θ : ℚ) :
    ∀ (ts : List (List ℚ)) (i0 : Nat) (t : Nat × Nat × ℚ),
      t ∈ collectIssues θ i0 ts ↔
        ∃ k row, ts.get? k = some row ∧
          ∃ j s, row.get? j = some s ∧ s < θ ∧ t = (i0 + k, j, s)
  | [], i0, t => by simp [collectIssues]
  | row :: rest, i0, t => by
    simp only [collectIssues, List.mem_append]
    rw [collectRow_mem θ i0 row 0 t, collectIssues_mem θ rest (i0 + 1) t]
    constructor
    · rintro (⟨j, s, hg, hlt, rfl⟩ | ⟨k, row', hk, j, s, hg, hlt, rfl⟩)
      · exact ⟨0, row, by simp, j, s, hg, hlt, by simp⟩
      · exact ⟨k + 1, row', by simpa using hk, j, s, hg, hlt, by
          simp [Nat.add_assoc, Nat.add_comm 1 k]⟩
    · rintro ⟨k, row', hk, j, s, hg, hlt, rfl⟩
      cases k with
      | zero =>
        simp only [List.get?_cons_zero, Option.some.injEq] at hk
        subst hk
        exact Or.inl ⟨j, s, hg, hlt, by simp⟩
      | succ k =>
        refine Or.inr ⟨k, row', by simpa using hk, j, s, hg, hlt, ?_⟩
        simp [Nat.add_assoc, Nat.add_comm 1 k]

theorem getD_of_get?_eq_some {α : Type*} {l : List α} {n : Nat} {a : α}
    (d : α) (h : l.get? n = some a) : l.getD n d = a := by
  induction l generalizing n with
  | nil => simp at h
  | cons x xs ih =>
    cases n with
    | zero =>
      simp only [List.get?_cons_zero, Option.some.injEq] at h
      simp [h]
    | succ n =>
      simp only [List.get?_cons_succ] at h
      simpa using ih h

theorem mem_collect_score {θ : ℚ} {ts : List (List ℚ)} {t : Nat × Nat × ℚ}
    (h : t ∈ collectIssues θ 0 ts) : t.2.2 = tokenScoreAt ts (t.1, t.2.1) := by
  obtain ⟨k, row, hk, j, s, hg, hlt, rfl⟩ := (collectIssues_mem θ ts 0 t).mp h
  simp only [tokenScoreAt, Nat.zero_add]
  rw [getD_of_get?_eq_some [] hk, getD_of_get?_eq_some 0 hg]

theorem tokenIssues_mem (ts : List (List ℚ)) (θ : ℚ) (p : Nat × Nat) :
    p ∈ tokenIssues ts θ ↔
      ∃ row, ts.get? p.1 = some row ∧ ∃ s, row.get? p.2 = some s ∧ s < θ := by
  simp only [tokenIssues, List.mem_map]
  constructor
  · rintro ⟨t, ht, rfl⟩
    have htc : t ∈ collectIssues θ 0 ts :=
      (List.perm_insertionSort scoreLe _).mem_iff.mp ht
    obtain ⟨k, row, hk, j, s, hg, hlt, rfl⟩ :=
      (collectIssues_mem θ ts 0 t).mp htc
    exact ⟨row, by simpa using hk, s, hg, hlt⟩
  · rintro ⟨row, hk, s, hg, hlt⟩
    refine ⟨(p.1, p.2, s), ?_, rfl⟩
    refine (List.perm_insertionSort scoreLe _).mem_iff.mpr ?_
    exact (collectIssues_mem θ ts 0 (p.1, p.2, s)).mpr
      ⟨p.1, row, hk, p.2, s, hg, hlt, by simp⟩

theorem orderedInsert_stable (x : Nat × Nat × ℚ) :
    ∀ (m : List (Nat × Nat × ℚ)), List.Sorted scoreLe m →
      m.Pairwise stableRel → (∀ y ∈ m, scanRel x y) →
      (List.orderedInsert scoreLe x m).Pairwise stableRel
  | [], _, _, _ => by simp
  | b :: t, hs, hq, hp => by
    by_cases hxb : scoreLe x b
    · rw [List.orderedInsert, if_pos hxb]
      refine List.Pairwise.cons ?_ hq
      intro y hy
      have hxy : x.2.2 ≤ y.2.2 := by
        rcases List.mem_cons.mp hy with rfl | hyt
        · exact hxb
        · exact le_trans hxb ((List.sorted_cons.mp hs).1 y hyt)
      rcases lt_or_eq_of_le hxy with hlt | heq
      · exact Or.inl hlt
      · exact Or.inr ⟨heq, hp y hy⟩
    · rw [List.orderedInsert, if_neg hxb]
      have hbx : b.2.2 < x.2.2 := lt_of_not_le hxb
      refine List.Pairwise.cons ?_
        (orderedInsert_stable x t (List.sorted_cons.mp hs).2 hq.of_cons
          fun y hy => hp y (List.mem_cons_of_mem _ hy))
      intro y hy
      rcases (List.mem_orderedInsert scoreLe).mp hy with rfl | hyt
      · exact Or.inl hbx
      · exact List.rel_of_pairwise_cons hq hyt

theorem insertionSort_stable :
    ∀ (l : List (Nat × Nat × ℚ)), l.Pairwise scanRel →
      (List.insertionSort scoreLe l).Pairwise stableRel
  | [], _ => by simp
  | a :: l, hp => by
    rw [List.insertionSort]
    refine orderedInsert_stable a _ (List.sorted_insertionSort scoreLe l)
      (insertionSort_stable l hp.of_cons) ?_
    intro y hy
    exact List.rel_of_pairwise_cons hp
      ((List.perm_insertionSort scoreLe l).mem_iff.mp hy)

theorem collectRow_pairwise (θ : ℚ) (i : Nat) :
    ∀ (row : List ℚ) (j0 : Nat), (collectRow θ i j0 row).Pairwise scanRel
  | [], _ => by simp [collectRow]
  | s :: rest, j0 => by
    rw [collectRow, List.pairwise_append]
    refine ⟨?_, collectRow_pairwise θ i rest (j0 + 1), ?_⟩
    · by_cases hs : s < θ <;> simp [hs]
    · intro a ha b hb
      by_cases hs : s < θ
      · simp only [if_pos hs, List.mem_singleton] at ha
        subst ha
        obtain ⟨j, s', hg, hlt, rfl⟩ := (collectRow_mem θ i rest (j0 + 1) b).mp hb
        refine Or.inr ⟨rfl, ?_⟩
        show j0 < j0 + 1 + j
        omega
      · simp [if_neg hs] at ha

theorem collectIssues_pairwise (θ : ℚ) :
    ∀ (ts : List (List ℚ)) (i0 : Nat), (collectIssues θ i0 ts).Pairwise scanRel
  | [], _ => by simp [collectIssues]
  | row :: rest, i0 => by
    rw [collectIssues, List.pairwise_append]
    refine ⟨collectRow_pairwise θ i0 row 0, collectIssues_pairwise θ rest (i0 + 1), ?_⟩
    intro a ha b hb
    obtain ⟨j, s, hg, hlt, rfl⟩ := (collectRow_mem θ i0 row 0 a).mp ha
    obtain ⟨k, row', hk, j', s', hg', hlt', rfl⟩ :=
      (collectIssues_mem θ rest (i0 + 1) b).mp hb
    refine Or.inl ?_
    show i0 < i0 + 1 + k
    omega

/-- Claim C4: in token mode (`token_scores` supplied and non-empty),
`issues_from_scores` returns exactly the pairs `(i, j)` with
`token_scores[i][j] < threshold` (strict inequality), sorted ascending by
the corresponding token score, with the scores discarded from the output. -/
theorem token_mode_threshold_correct (sentence_scores : List ℚ)
    (ts : List (List ℚ)) (θ : ℚ) (hne : ts ≠ []) :
    issues_from_scores sentence_scores (some ts) θ
        = some (Sum.inl (tokenIssues ts θ)) ∧
      (∀ p : Nat × Nat, p ∈ tokenIssues ts θ ↔
        ∃ row, ts.get? p.1 = some row ∧ ∃ s, row.get? p.2 = some s ∧ s < θ) ∧
      (tokenIssues ts θ).Pairwise fun p q => tokenScoreAt ts p ≤ tokenScoreAt ts q := by
    refine ⟨by simp [issues_from_scores, hne], tokenIssues_mem ts θ, ?_⟩
    rw [tokenIssues, List.pairwise_map]
    have hsorted : (List.insertionSort scoreLe (collectIssues θ 0 ts)).Pairwise scoreLe :=
      List.sorted_insertionSort scoreLe (collectIssues θ 0 ts)
    refine hsorted.imp_of_mem ?_
    intro a b ha hb hab
    have hsa := mem_collect_score
      ((List.perm_insertionSort scoreLe (collectIssues θ 0 ts)).subset ha)
    have hsb := mem_collect_score
      ((List.perm_insertionSort scoreLe (collectIssues θ 0 ts)).subset hb)
    rw [← hsa, ← hsb]
    exact hab

/-- Witness for C4 at `token_scores = [[5]]`, threshold `10`. -/
theorem token_mode_threshold_correct_witness :
    ([[(5 : ℚ)]] ≠ ([] : List (List ℚ))) ∧
      (issues_from_scores [] (some [[(5 : ℚ)]]) 10
        = some (Sum.inl (tokenIssues [[(5 : ℚ)]] 10)) ∧
      (∀ p : Nat × Nat, p ∈ tokenIssues [[(5 : ℚ)]] 10 ↔
        ∃ row, [[(5 : ℚ)]].get? p.1 = some row ∧
          ∃ s, row.get? p.2 = some s ∧ s < 10) ∧
      (tokenIssues [[(5 : ℚ)]] 10).Pairwise
        fun p q => tokenScoreAt [[(5 : ℚ)]] p ≤ tokenScoreAt [[(5 : ℚ)]] q) :=
  ⟨by decide, token_mode_threshold_correct [] [[(5 : ℚ)]] 10 (by decide)⟩

/-- Claim C10: ties in token mode are broken by the original scan order —
when two returned pairs have equal token scores, the one listed first is
the one with the lexicographically smaller (sentence index, token index),
because the triples are collected in scan order and the sort on the score
key is stable. -/
theorem token_mode_tie_break_stable (ts : List (List ℚ)) (θ : ℚ) :
    (tokenIssues ts θ).Pairwise
      fun p q => tokenScoreAt ts p = tokenScoreAt ts q → posLt p q := by
  rw [tokenIssues, List.pairwise_map]
  have hstable := insertionSort_stable (collectIssues θ 0 ts)
    (collectIssues_pairwise θ ts 0)
  refine hstable.imp_of_mem ?_
  intro a b ha hb hab heq
  have hsa := mem_collect_score
    ((List.perm_insertionSort scoreLe (collectIssues θ 0 ts)).subset ha)
  have hsb := mem_collect_score
    ((List.perm_insertionSort scoreLe (collectIssues θ 0 ts)).subset hb)
  rcases hab with hlt | ⟨_, hpos⟩
  · rw [← hsa, ← hsb] at heq
    exact absurd heq (ne_of_lt hlt)
  · exact hpos

/-- Sanity check of the token-mode embedding against the docstring example
of `issues_from_scores` (not a claim): the docstring's token scores scaled
by `10^2` (which preserves every comparison) with threshold `0.1 * 10^2`
give the docstring's issue list. -/
theorem token_mode_docstring_example :
    issues_from_scores []
      (some [[90, 60], [0, 80, 80], [80, 80], [10, 2, 30, 40],
             [10, 20, 3, 40], [10, 20, 30, 4], [10, 20, 40], [30, 40],
             [8, 20, 50, 40], [10, 20, 30, 40]]) 10
      = some (Sum.inl [(1, 0), (3, 1), (4, 2), (5, 3), (8, 0)]) := by
  decide

theorem foldl_min_le_init : ∀ (l : List ℝ) (a : ℝ), l.foldl min a ≤ a
  | [], a => le_refl a
  | x :: xs, a =>
    le_trans (foldl_min_le_init xs (min a x)) (min_le_left a x)

theorem foldl_min_le_mem :
    ∀ (l : List ℝ) (a x : ℝ), x ∈ l → l.foldl min a ≤ x
  | x :: xs, a, y, hy => by
    rcases List.mem_cons.mp hy with rfl | hyt
    · exact le_trans (foldl_min_le_init xs (min a y)) (min_le_right a y)
    · exact foldl_min_le_mem xs (min a x) y hyt

theorem foldl_min_mem :
    ∀ (l : List ℝ) (a : ℝ), l.foldl min a = a ∨ l.foldl min a ∈ l
  | [], a => Or.inl rfl
  | x :: xs, a => by
    rcases foldl_min_mem xs (min a x) with h | h
    · rcases min_choice a x with hm | hm
      · exact Or.inl (by rw [List.foldl_cons, h, hm])
      · exact Or.inr (by rw [List.foldl_cons, h, hm]; exact List.mem_cons_self x xs)
    · exact Or.inr (List.mem_cons_of_mem x h)

theorem listMin_le {l : List ℝ} {x : ℝ} (hx : x ∈ l) : listMin l ≤ x := by
  cases l with
  | nil => simp at hx
  | cons a xs =>
    rw [listMin]
    rcases List.mem_cons.mp hx with rfl | hxt
    · exact foldl_min_le_init xs x
    · exact foldl_min_le_mem xs a x hxt

theorem listMin_mem {l : List ℝ} (h : l ≠ []) : listMin l ∈ l := by
  cases l with
  | nil => exact absurd rfl h
  | cons a xs =>
    rw [listMin]
    rcases foldl_min_mem xs a with hm | hm
    · rw [hm]; exact List.mem_cons_self a xs
    · exact List.mem_cons_of_mem a hm

theorem foldl_max_le_init : ∀ (l : List ℝ) (a : ℝ), a ≤ l.foldl max a
  | [], a => le_refl a
  | x :: xs, a =>
    le_trans (le_max_left a x) (foldl_max_le_init xs (max a x))

theorem foldl_max_le_mem :
    ∀ (l : List ℝ) (a x : ℝ), x ∈ l → x ≤ l.foldl max a
  | x :: xs, a, y, hy => by
    rcases List.mem_cons.mp hy with rfl | hyt
    · exact le_trans (le_max_right a y) (foldl_max_le_init xs (max a y))
    · exact foldl_max_le_mem xs (max a x) y hyt

theorem le_listMax {l : List ℝ} {x : ℝ} (hx : x ∈ l) : x ≤ listMax l := by
  cases l with
  | nil => simp at hx
  | cons a xs =>
    rw [listMax]
    rcases List.mem_cons.mp hx with rfl | hxt
    · exact foldl_max_le_init xs x
    · exact foldl_max_le_mem xs a x hxt

/-- Claim C5: with temperature exactly `0`, softmin aggregation returns each
sentence's minimum token score (the embedded `np.min` is the true minimum:
a member of the list that is below every element), and with temperature
`+∞` it returns each sentence's arithmetic mean. -/
theorem softmin_degenerate (ts : List (List ℝ)) (h : ∀ s ∈ ts, s ≠ []) :
    _softmin_sentence_score ts 0 = ts.map listMin ∧
      (∀ s ∈ ts, listMin s ∈ s ∧ ∀ x ∈ s, listMin s ≤ x) ∧
      _softmin_sentence_score ts ⊤ = ts.map listMean ∧
      ∀ s ∈ ts, listMean s = s.sum / s.length := by
  refine ⟨?_, ?_, ?_, ?_⟩
  · rw [_softmin_sentence_score, if_pos rfl]
  · exact fun s hs => ⟨listMin_mem (h s hs), fun x hx => listMin_le hx⟩
  · rw [_softmin_sentence_score, if_neg (by simp), if_pos rfl]
  · exact fun s _ => rfl

/-- Witness for C5 at `token_scores = [[1, 2]]`. -/
theorem softmin_degenerate_witness :
    (∀ s ∈ [[(1 : ℝ), 2]], s ≠ []) ∧
      (_softmin_sentence_score [[(1 : ℝ), 2]] 0 = [[(1 : ℝ), 2]].map listMin ∧
      (∀ s ∈ [[(1 : ℝ), 2]], listMin s ∈ s ∧ ∀ x ∈ s, listMin s ≤ x) ∧
      _softmin_sentence_score [[(1 : ℝ), 2]] ⊤ = [[(1 : ℝ), 2]].map listMean ∧
      ∀ s ∈ [[(1 : ℝ), 2]], listMean s = s.sum / s.length) :=
  ⟨by simp, softmin_degenerate [[(1 : ℝ), 2]] (by simp)⟩

theorem dotList_map :
    ∀ (s : List ℝ) (g : ℝ → ℝ), dotList s (s.map g) = (s.map fun a => a * g a).sum
  | [], _ => rfl
  | a :: s, g => by
    simp only [dotList, List.map_cons, List.zip_cons_cons, List.sum_cons]
    rw [← dotList_map s g]
    rfl

theorem sum_map_div :
    ∀ (l : List ℝ) (h : ℝ → ℝ) (E : ℝ),
      (l.map fun a => h a / E).sum = (l.map h).sum / E
  | [], _, E => by simp
  | a :: l, h, E => by
    simp only [List.map_cons, List.sum_cons, sum_map_div l h E, add_div]

theorem sum_map_pos {l : List ℝ} (hne : l ≠ []) (w : ℝ → ℝ)
    (hw : ∀ x ∈ l, 0 < w x) : 0 < (l.map w).sum := by
  cases l with
  | nil => exact absurd rfl hne
  | cons a xs =>
    simp only [List.map_cons, List.sum_cons]
    have h1 : 0 < w a := hw a (List.mem_cons_self a xs)
    have h2 : 0 ≤ (xs.map w).sum :=
      List.sum_nonneg fun x hx => by
        obtain ⟨y, hy, rfl⟩ := List.mem_map.mp hx
        exact le_of_lt (hw y (List.mem_cons_of_mem a hy))
    linarith

theorem sum_mul_w_le {l : List ℝ} {w : ℝ → ℝ} {c : ℝ}
    (hw : ∀ x ∈ l, 0 ≤ w x) (hc : ∀ x ∈ l, x ≤ c) :
    (l.map fun a => a * w a).sum ≤ c * (l.map w).sum := by
  induction l with
  | nil => simp
  | cons a xs ih =>
    simp only [List.map_cons, List.sum_cons, mul_add]
    have h1 : a * w a ≤ c * w a :=
      mul_le_mul_of_nonneg_right (hc a (List.mem_cons_self a xs))
        (hw a (List.mem_cons_self a xs))
    have h2 := ih (fun x hx => hw x (List.mem_cons_of_mem a hx))
      (fun x hx => hc x (List.mem_cons_of_mem a hx))
    linarith

theorem le_sum_mul_w {l : List ℝ} {w : ℝ → ℝ} {c : ℝ}
    (hw : ∀ x ∈ l, 0 ≤ w x) (hc : ∀ x ∈ l, c ≤ x) :
    c * (l.map w).sum ≤ (l.map fun a => a * w a).sum := by
  induction l with
  | nil => simp
  | cons a xs ih =>
    simp only [List.map_cons, List.sum_cons, mul_add]
    have h1 : c * w a ≤ a * w a :=
      mul_le_mul_of_nonneg_right (hc a (List.mem_cons_self a xs))
        (hw a (List.mem_cons_self a xs))
    have h2 := ih (fun x hx => hw x (List.mem_cons_of_mem a hx))
      (fun x hx => hc x (List.mem_cons_of_mem a hx))
    linarith

theorem softminFun_eq (t : ℝ) (s : List ℝ) :
    softminFun t s =
      (s.map fun a =>
        a * (Real.exp ((1 - a) / t) /
          (s.map fun b => Real.exp ((1 - b) / t)).sum)).sum := by
  rw [softminFun, softmax_t]
  simp only [List.map_map]
  rw [show ((fun x => Real.exp (x / t)) ∘ fun s => 1 - s)
      = fun b => Real.exp ((1 - b) / t) from rfl]
  rw [show ((fun e => e / (List.map (fun b => Real.exp ((1 - b) / t)) s).sum)
        ∘ fun b => Real.exp ((1 - b) / t))
      = fun a => Real.exp ((1 - a) / t)
          / (List.map (fun b => Real.exp ((1 - b) / t)) s).sum from rfl]
  exact dotList_map s _

theorem softminFun_bounds {s : List ℝ} (t : ℝ) (hs : s ≠ []) :
    listMin s ≤ softminFun t s ∧ softminFun t s ≤ listMax s := by
  rw [softminFun_eq t s]
  set w : ℝ → ℝ := fun b => Real.exp ((1 - b) / t) with hw
  have hwpos : ∀ x ∈ s, 0 < w x := fun x _ => Real.exp_pos _
  have hwnn : ∀ x ∈ s, 0 ≤ w x := fun x hx => le_of_lt (hwpos x hx)
  have hE : 0 < (s.map w).sum := sum_map_pos hs w hwpos
  have hrw : (s.map fun a => a * (w a / (s.map w).sum)).sum
      = (s.map fun a => a * w a).sum / (s.map w).sum := by
    rw [← sum_map_div s (fun a => a * w a) ((s.map w).sum)]
    congr 1
    exact List.map_congr_left fun a _ => (mul_div_assoc a (w a) _).symm
  rw [hrw]
  constructor
  · rw [le_div_iff₀ hE]
    exact le_sum_mul_w hwnn fun x hx => listMin_le hx
  · rw [div_le_iff₀ hE]
    exact sum_mul_w_le hwnn fun x hx => le_listMax hx

/-- Claim C7: for every list of non-empty token-score sequences with values
in `[0, 1]` and every finite positive temperature, each softmin sentence
score lies between the minimum and the maximum of that sentence's token
scores (inclusive). -/
theorem softmin_bounds (ts : List (List ℝ)) (t : ℝ) (ht : 0 < t)
    (h : ∀ s ∈ ts, s ≠ [] ∧ ∀ x ∈ s, 0 ≤ x ∧ x ≤ 1) :
    List.Forall₂ (fun s r => listMin s ≤ r ∧ r ≤ listMax s) ts
      (_softmin_sentence_score ts ↑t) := by
  rw [_softmin_sentence_score, if_neg (EReal.coe_ne_zero.mpr (ne_of_gt ht)),
    if_neg (EReal.coe_ne_top t), EReal.toReal_coe]
  rw [List.forall₂_map_right_iff]
  refine List.forall₂_same.mpr fun s hs => ?_
  exact softminFun_bounds t (h s hs).1

/-- Witness for C7 at `token_scores = [[1/2]]`, temperature `1`. -/
theorem softmin_bounds_witness :
    (0 : ℝ) < 1 ∧ (∀ s ∈ [[(1 : ℝ)/2]], s ≠ [] ∧ ∀ x ∈ s, 0 ≤ x ∧ x ≤ 1) ∧
      List.Forall₂ (fun s r => listMin s ≤ r ∧ r ≤ listMax s) [[(1 : ℝ)/2]]
        (_softmin_sentence_score [[(1 : ℝ)/2]] ↑(1 : ℝ)) :=
  ⟨by norm_num, by norm_num,
    softmin_bounds [[(1 : ℝ)/2]] 1 (by norm_num) (by norm_num)⟩

theorem exp_six_bounds : (374 : ℝ) < Real.exp 6 ∧ Real.exp 6 < 499 := by
  have h6 : Real.exp 6 = Real.exp 1 ^ 6 := by
    rw [← Real.exp_nat_mul]
    norm_num
  constructor
  · calc (374 : ℝ) < 2.7182818283 ^ 6 := by norm_num
    _ < Real.exp 1 ^ 6 :=
        pow_lt_pow_left₀ Real.exp_one_gt_d9 (by norm_num) (by norm_num)
    _ = Real.exp 6 := h6.symm
  · calc Real.exp 6 = Real.exp 1 ^ 6 := h6
    _ < 2.7182818286 ^ 6 :=
        pow_lt_pow_left₀ Real.exp_one_lt_d9 (le_of_lt (Real.exp_pos 1)) (by norm_num)
    _ < 499 := by norm_num

theorem exp_sixteen_bounds :
    (5333332 : ℝ) < Real.exp 16 ∧ Real.exp 16 < 15999998 := by
  have h16 : Real.exp 16 = Real.exp 1 ^ 16 := by
    rw [← Real.exp_nat_mul]
    norm_num
  constructor
  · calc (5333332 : ℝ) < 2.7182818283 ^ 16 := by norm_num
    _ < Real.exp 1 ^ 16 :=
        pow_lt_pow_left₀ Real.exp_one_gt_d9 (by norm_num) (by norm_num)
    _ = Real.exp 16 := h16.symm
  · calc Real.exp 16 = Real.exp 1 ^ 16 := h16
    _ < 2.7182818286 ^ 16 :=
        pow_lt_pow_left₀ Real.exp_one_lt_d9 (le_of_lt (Real.exp_pos 1)) (by norm_num)
    _ < 15999998 := by norm_num

theorem softmin_first_sentence :
    softminFun 0.05 [0.9, 0.6] = (0.9 + 0.6 * Real.exp 6) / (1 + Real.exp 6) := by
  have heval : softminFun 0.05 [0.9, 0.6]
      = 0.9 * (Real.exp 2 / (Real.exp 2 + Real.exp 8))
        + 0.6 * (Real.exp 8 / (Real.exp 2 + Real.exp 8)) := by
    rw [softminFun, softmax_t]
    norm_num [dotList]
  have h8 : Real.exp 8 = Real.exp 2 * Real.exp 6 := by
    rw [← Real.exp_add]
    norm_num
  have h1 : Real.exp 2 + Real.exp 8 ≠ 0 := by positivity
  have h2 : (1 : ℝ) + Real.exp 6 ≠ 0 := by positivity
  rw [heval, h8] at *
  rw [h8] at h1
  field_simp
  ring

theorem softmin_second_sentence :
    softminFun 0.05 [0, 0.8, 0.8] = 1.6 / (Real.exp 16 + 2) := by
  have heval : softminFun 0.05 [0, 0.8, 0.8]
      = 0.8 * (Real.exp 4 / (Real.exp 20 + (Real.exp 4 + Real.exp 4)))
        + 0.8 * (Real.exp 4 / (Real.exp 20 + (Real.exp 4 + Real.exp 4))) := by
    rw [softminFun, softmax_t]
    norm_num [dotList]
  have h20 : Real.exp 20 = Real.exp 4 * Real.exp 16 := by
    rw [← Real.exp_add]
    norm_num
  have h1 : Real.exp 20 + (Real.exp 4 + Real.exp 4) ≠ 0 := by positivity
  have h2 : Real.exp 16 + 2 ≠ 0 := by positivity
  rw [heval, h20] at *
  rw [h20] at h1
  field_simp
  ring

theorem softmin_third_sentence : softminFun 0.05 [0.8] = 0.8 := by
  rw [softminFun, softmax_t]
  norm_num [dotList, Real.exp_ne_zero]

/-- Claim C6: for a finite positive temperature the softmin sentence score
is the dot product of the token scores `s` with `softmax((1 - s) / t)`
(plain softmax, no max-shifting), and on the docstring example
`token_scores = [[0.9, 0.6], [0.0, 0.8, 0.8], [0.8]]` at the default
temperature `0.05` the sentence scores are approximately
`[0.6007, 1.8e-7, 0.8]` (within `10^-4`, inside `(10^-7, 3*10^-7)`, and
exactly `0.8`, respectively). -/
theorem softmin_formula_and_scenario :
    (∀ (s : List ℝ) (t : ℝ), s ≠ [] → 0 < t →
      _softmin_sentence_score [s] ↑t
        = [dotList s (softmaxSpec (s.map fun a => (1 - a) / t))]) ∧
      ∃ r1 r2 r3,
        _softmin_sentence_score [[0.9, 0.6], [0, 0.8, 0.8], [0.8]]
            ((0.05 : ℝ) : EReal) = [r1, r2, r3] ∧
          |r1 - 0.6007| < 1/10000 ∧
          1/10000000 < r2 ∧ r2 < 3/10000000 ∧ r3 = 0.8 := by
  constructor
  · intro s t _hs ht
    rw [_softmin_sentence_score, if_neg (EReal.coe_ne_zero.mpr (ne_of_gt ht)),
      if_neg (EReal.coe_ne_top t), EReal.toReal_coe, List.map_cons, List.map_nil]
    rw [softminFun, softmax_t, softmaxSpec]
    simp only [List.map_map, Function.comp_def]
  · refine ⟨softminFun 0.05 [0.9, 0.6], softminFun 0.05 [0, 0.8, 0.8],
      softminFun 0.05 [0.8], ?_, ?_, ?_, ?_, softmin_third_sentence⟩
    · rw [_softmin_sentence_score,
        if_neg (EReal.coe_ne_zero.mpr (by norm_num : (0.05 : ℝ) ≠ 0)),
        if_neg (EReal.coe_ne_top (0.05 : ℝ)), EReal.toReal_coe]
      rfl
    · rw [softmin_first_sentence]
      obtain ⟨hl, hr⟩ := exp_six_bounds
      have hu : (0 : ℝ) < 1 + Real.exp 6 := by positivity
      have hlt : (0.9 + 0.6 * Real.exp 6) / (1 + Real.exp 6) < 0.6008 := by
        rw [div_lt_iff₀ hu]
        nlinarith
      have hgt : (0.6006 : ℝ) < (0.9 + 0.6 * Real.exp 6) / (1 + Real.exp 6) := by
        rw [lt_div_iff₀ hu]
        nlinarith
      rw [abs_lt]
      constructor <;> linarith
    · rw [softmin_second_sentence]
      obtain ⟨hl, hr⟩ := exp_sixteen_bounds
      have hv : (0 : ℝ) < Real.exp 16 + 2 := by positivity
      rw [lt_div_iff₀ hv]
      nlinarith
    · rw [softmin_second_sentence]
      obtain ⟨hl, hr⟩ := exp_sixteen_bounds
      have hv : (0 : ℝ) < Real.exp 16 + 2 := by positivity
      rw [div_lt_iff₀ hv]
      nlinarith

/-- Witness for the universally quantified formula half of C6 at
`s = [1]`, `t = 1`. -/
theorem softmin_formula_and_scenario_witness :
    ([(1 : ℝ)] ≠ ([] : List ℝ)) ∧ (0 : ℝ) < 1 ∧
      _softmin_sentence_score [[(1 : ℝ)]] ↑(1 : ℝ)
        = [dotList [(1 : ℝ)] (softmaxSpec ([(1 : ℝ)].map fun a => (1 - a) / 1))] :=
  ⟨by simp, by norm_num,
    softmin_formula_and_scenario.1 [(1 : ℝ)] 1 (by simp) (by norm_num)⟩

/-- Counterexample to claim C3 as stated: `labels = [[0, 0], [0]]` and
`pred_probs = [[row], [row, row]]` have different per-sentence lengths
(`[2, 1]` vs `[1, 2]`) but the same total token count, and the call does
*not* fail — it returns scores re-nested by the per-sentence lengths of
`labels`, misaligned with the sentence structure of `pred_probs`. -/
theorem get_label_quality_scores_no_per_sentence_check :
    (List.map List.length [[0, 0], [0]]
        ≠ List.map List.length [[[(0.9 : ℝ), 0.1]], [[0.7, 0.3], [0.2, 0.8]]]) ∧
      get_label_quality_scores [[0, 0], [0]]
          [[[(0.9 : ℝ), 0.1]], [[0.7, 0.3], [0.2, 0.8]]] "min" 0
        = Except.ok ([0.7, 0.2], [[0.9, 0.7], [0.2]]) := by
  constructor
  · decide
  · rw [get_label_quality_scores, if_pos (by simp)]
    simp only [List.flatten, List.map, List.length, main_get_label_quality_scores]
    norm_num [nested_list, takeN, listMin, List.getD, min_def]

/-- Claim C3 (amended): for a recognized sentence scoring method, the call
fails fast (with the external scorer's length-mismatch error) whenever the
*total* flattened token counts of `labels` and `pred_probs` differ.  When
the per-sentence lengths differ but the totals agree, no check exists —
flattening precedes every shape check, so the call silently returns scores
re-nested by the per-sentence lengths of `labels`, misaligned with
`pred_probs` (see the counterexample). -/
theorem get_label_quality_scores_total_length_check
    (labels : List (List Nat)) (pred_probs : List (List (List ℝ)))
    (temperature : EReal) (method : String)
    (hm : method = "min" ∨ method = "softmin")
    (hlen : labels.flatten.length ≠ pred_probs.flatten.length) :
    get_label_quality_scores labels pred_probs method temperature
      = Except.error "labels and pred_probs must have equal length" := by
  rw [get_label_quality_scores, if_pos (by rcases hm with rfl | rfl <;> simp)]
  simp only [main_get_label_quality_scores, if_neg hlen]

/-- Witness for C3 (amended) at `labels = [[0]]`, `pred_probs = []`,
method `"min"`. -/
theorem get_label_quality_scores_total_length_check_witness :
    (("min" : String) = "min" ∨ ("min" : String) = "softmin") ∧
      (List.flatten [[0]]).length
          ≠ (List.flatten ([] : List (List (List ℝ)))).length ∧
      get_label_quality_scores [[0]] [] "min" 0
        = Except.error "labels and pred_probs must have equal length" :=
  ⟨Or.inl rfl, by decide,
    get_label_quality_scores_total_length_check [[0]] [] 0 "min"
      (Or.inl rfl) (by decide)⟩

/-- Claim C9: an unrecognized `sentence_score_method` is rejected with the
assertion message enumerating the valid names, before any flattening or
scoring (the rejection is uniform in `labels`/`pred_probs`, including
inputs every later stage would choke on); the two recognized names never
produce this error. -/
theorem invalid_method_rejected (labels : List (List Nat))
    (pred_probs : List (List (List ℝ))) (temperature : EReal)
    (method : String) :
    (method ≠ "min" → method ≠ "softmin" →
      get_label_quality_scores labels pred_probs method temperature
        = Except.error methodsMsg) ∧
      (method = "min" ∨ method = "softmin" →
        get_label_quality_scores labels pred_probs method temperature
          ≠ Except.error methodsMsg) ∧
      methodsMsg = "Select from the following methods:\n" ++ "min" ++ "\n"
        ++ "softmin" := by
  refine ⟨?_, ?_, rfl⟩
  · intro h1 h2
    rw [get_label_quality_scores, if_neg (by simp [h1, h2])]
  · intro hm heq
    rw [get_label_quality_scores, if_pos (by rcases hm with rfl | rfl <;> simp)]
      at heq
    rcases hmain : main_get_label_quality_scores labels.flatten pred_probs.flatten
      with msg | ts
    · simp only [hmain, Except.error.injEq] at heq
      rw [main_get_label_quality_scores] at hmain
      split_ifs at hmain
      rw [Except.error.injEq] at hmain
      rw [← hmain] at heq
      exact absurd heq (by decide)
    · simp only [hmain] at heq
      rcases hn : nested_list ts (labels.map List.length) with _ | r
      · simp only [hn, Except.error.injEq] at heq
        exact absurd heq (by decide)
      · simp only [hn] at heq
        split_ifs at heq

/-- Witness for C9 at `method = "foo"` (and the recognized `"min"`). -/
theorem invalid_method_rejected_witness :
    (("foo" : String) ≠ "min") ∧ (("foo" : String) ≠ "softmin") ∧
      get_label_quality_scores [] [] "foo" 0 = Except.error methodsMsg :=
  ⟨by decide, by decide,
    (invalid_method_rejected [] [] 0 "foo").1 (by decide) (by decide)⟩
